import Mathlib

set_option maxRecDepth 40000

/-!
Verification development for the mihon OCR native pipeline
(`ocr_inference.cpp`, `text_postprocessor.cpp`, `ocr_native.cpp`).

All definitions are shallow embeddings of the C++ source:
* text positions are Unicode code points (`Nat`), as the C++ operates on
  decoded `wchar_t` code points, not raw bytes;
* machine integers are modelled as `Nat`/`Int`;
* fallible engine calls (LiteRT compile / buffer / run / read / write) are
  modelled by explicit oracles recording each call's success or failure;
* 32-bit float logits are modelled by an abstract value type together with
  the boolean strict-greater comparison the code performs on them.
-/

namespace Mihon

/-! ## Constants (ocr_inference.h, ocr_native.cpp) -/

def IMAGE_SIZE : Nat := 224
def MAX_SEQUENCE_LENGTH : Nat := 300
def VOCAB_SIZE : Nat := 6144
def HIDDEN_SIZE : Nat := 768
def START_TOKEN_ID : Nat := 2
def END_TOKEN_ID : Nat := 3
def PAD_TOKEN_ID : Nat := 0
def SPECIAL_TOKEN_THRESHOLD : Int := 5
def TABLE_SIZE : Nat := 127

/-! ## TextPostprocessor (text_postprocessor.cpp)

`halfToFullTable` models the 127-entry `halfToFullTable_` array: it is
initialized to the identity mapping and then overwritten entry by entry in
`initializeConversionTable`.  Every explicit entry below is the exact code
point of the wide-character literal in the source (`'"'` maps to itself,
`'\''` maps to itself, and a backtick maps to an ASCII apostrophe). -/

def halfToFullTable (c : Nat) : Nat :=
  match c with
  | 33 => 65281 | 34 => 34    | 35 => 65283
  | 36 => 65284 | 37 => 65285 | 38 => 65286
  | 39 => 39    | 40 => 65288 | 41 => 65289
  | 42 => 65290 | 43 => 65291 | 44 => 65292
  | 45 => 65293 | 46 => 65294 | 47 => 65295
  | 48 => 65296 | 49 => 65297 | 50 => 65298
  | 51 => 65299 | 52 => 65300 | 53 => 65301
  | 54 => 65302 | 55 => 65303 | 56 => 65304
  | 57 => 65305 | 58 => 65306 | 59 => 65307
  | 60 => 65308 | 61 => 65309 | 62 => 65310
  | 63 => 65311 | 64 => 65312
  | 65 => 65313 | 66 => 65314 | 67 => 65315
  | 68 => 65316 | 69 => 65317 | 70 => 65318
  | 71 => 65319 | 72 => 65320 | 73 => 65321
  | 74 => 65322 | 75 => 65323 | 76 => 65324
  | 77 => 65325 | 78 => 65326 | 79 => 65327
  | 80 => 65328 | 81 => 65329 | 82 => 65330
  | 83 => 65331 | 84 => 65332 | 85 => 65333
  | 86 => 65334 | 87 => 65335 | 88 => 65336
  | 89 => 65337 | 90 => 65338
  | 91 => 65339 | 92 => 65340 | 93 => 65341
  | 94 => 65342 | 95 => 65343 | 96 => 39
  | 97 => 65345 | 98 => 65346 | 99 => 65347
  | 100 => 65348 | 101 => 65349 | 102 => 65350
  | 103 => 65351 | 104 => 65352 | 105 => 65353
  | 106 => 65354 | 107 => 65355 | 108 => 65356
  | 109 => 65357 | 110 => 65358 | 111 => 65359
  | 112 => 65360 | 113 => 65361 | 114 => 65362
  | 115 => 65363 | 116 => 65364 | 117 => 65365
  | 118 => 65366 | 119 => 65367 | 120 => 65368
  | 121 => 65369 | 122 => 65370
  | 123 => 65371 | 124 => 65372 | 125 => 65373
  | 126 => 65374
  | _ => c

/-- Modelled from the platform's `std::iswspace` on decoded wide
characters: the ASCII whitespace controls plus the Unicode whitespace
code points.  Only membership of U+0020 and non-membership of the
characters the postprocessor emits matter for the proofs below. -/
def wsList : List Nat :=
  [9, 10, 11, 12, 13, 32, 133, 160, 5760,
   8192, 8193, 8194, 8195, 8196, 8197, 8198, 8199, 8200, 8201, 8202,
   8232, 8233, 8239, 8287, 12288]

def wsChar (c : Nat) : Bool := wsList.contains c

/-- The test `c == L'.' || c == L'・'` (U+30FB = 12539). -/
def isDot (c : Nat) : Bool := c == 46 || c == 12539

/-- Ellipsis code point U+2026. -/
def ellipsisCp : Nat := 8230

/-- The table lookup at the end of the loop body:
`if (c < TABLE_SIZE) result += halfToFullTable_[c]; else result += c;`. -/
def halfToFullConvert (c : Nat) : Nat :=
  if c < TABLE_SIZE then halfToFullTable c else c

/-- Model of `TextPostprocessor::postprocess`, one step of the `while (i < len)` loop
per recursive call.  The dot-run branch counts the contiguous run of `.` /
`・` starting at the current character (`dotCount`, which includes the
current character) and, when the run has length ≥ 2, emits that many ASCII
dots and advances past the whole run; a run of length 1 falls through to the
conversion-table branch. -/
def postprocess : List Nat → List Nat
  | [] => []
  | c :: rest =>
    if wsChar c then postprocess rest
    else if c = ellipsisCp then 46 :: 46 :: 46 :: postprocess rest
    else if isDot c ∧ 2 ≤ 1 + (rest.takeWhile isDot).length then
      List.replicate (1 + (rest.takeWhile isDot).length) 46 ++
        postprocess (rest.dropWhile isDot)
    else halfToFullConvert c :: postprocess rest
termination_by l => l.length
decreasing_by
  all_goals simp_wf
  all_goals exact Nat.lt_succ_of_le ((List.dropWhile_sublist _).length_le)

/-- Code points of a Lean string literal, for stating concrete cases. -/
def strCps (s : String) : List Nat := s.data.map Char.toNat

/-- Canonical-form invariant of postprocessed text (an analysis device for
the proofs, not code of the repository): no whitespace or ellipsis code
points; every maximal dot-run is either a run of at least two ASCII dots
or a single `・`; and every other code point below `TABLE_SIZE` is a fixed
point of the conversion table. -/
def CanonB : List Nat → Bool
  | [] => true
  | c :: rest =>
    if wsChar c then false
    else if c = ellipsisCp then false
    else if isDot c then
      if 2 ≤ 1 + (rest.takeWhile isDot).length then
        ((c :: rest).takeWhile isDot).all (fun d => d == 46) &&
          CanonB (rest.dropWhile isDot)
      else c == 12539 && CanonB rest
    else
      (if c < TABLE_SIZE then halfToFullTable c == c else true) && CanonB rest
termination_by l => l.length
decreasing_by
  all_goals simp_wf
  all_goals exact Nat.lt_succ_of_le ((List.dropWhile_sublist _).length_le)

/-! ## TokenVocabularyDecoder (ocr_native.cpp, nativeDecodeTokens)

Vocabulary entries are byte strings; we model each fragment as a list of
code points and the running `std::string result` as the accumulator. -/

def decodeTokensGo (vocab : List (List Nat)) : List Int → List Nat → List Nat
  | [], result => result
  | tokenId :: rest, result =>
    if tokenId < SPECIAL_TOKEN_THRESHOLD then
      decodeTokensGo vocab rest result
    else if tokenId < (vocab.length : Int) then
      decodeTokensGo vocab rest (result ++ vocab.getD tokenId.toNat [])
    else
      decodeTokensGo vocab rest result

/-- Model of `nativeDecodeTokens`: empty vocabulary short-circuits to the empty
string; otherwise ids are processed in order by the loop above. -/
def nativeDecodeTokens (vocab : List (List Nat)) (tokenIds : List Int) : List Nat :=
  if vocab = [] then [] else decodeTokensGo vocab tokenIds []

/-! ## Greedy token selection (ocr_inference.cpp, FindMaxLogitToken)

The logits are 32-bit floats.  We model the float values by an abstract
type `F` together with the boolean comparison `gt` the code performs
(`logit > max_logit`) and the initial accumulator value `negInf`
(`-std::numeric_limits<float>::infinity()`).  Any IEEE float behaviour,
including NaN (for which every comparison is false) and infinities, is an
instance of this model; ordinary (non-NaN) floats are the instance
`F := WithBot ℚ`-like linear orders with `gt v m = decide (m < v)` and
`negInf = ⊥`. -/

/-- The `for (vocab_idx …)` loop of `FindMaxLogitToken`: `n` counts the
remaining iterations, `i` is `vocab_idx`, `m` is `max_logit` and `best` is
`max_token` (initially `PAD_TOKEN_ID`). -/
def argmaxGo {F : Type} (gt : F → F → Bool) (row : Nat → F) :
    Nat → Nat → F → Nat → Nat
  | 0, _, _, best => best
  | n + 1, i, m, best =>
    if gt (row i) m then argmaxGo gt row n (i + 1) (row i) i
    else argmaxGo gt row n (i + 1) m best

/-- Model of `OcrInference::FindMaxLogitToken(logits, seq_len)`: scans the
`VOCAB_SIZE` logits of row `seq_len - 1` with strict `>` starting from
`max_logit = -inf`, `max_token = PAD_TOKEN_ID`. -/
def FindMaxLogitToken {F : Type} (gt : F → F → Bool) (negInf : F)
    (logits : Nat → F) (seqLen : Nat) : Nat :=
  argmaxGo gt (fun vocabIdx => logits ((seqLen - 1) * VOCAB_SIZE + vocabIdx))
    VOCAB_SIZE 0 negInf PAD_TOKEN_ID

/-- The read range of `UpdateEmbedding`: it reads `HIDDEN_SIZE` floats of the embedding table
starting at `token_id * HIDDEN_SIZE`; this is the index one past the last
element read. -/
def embedReadEnd (tokenId : Nat) : Nat := tokenId * HIDDEN_SIZE + HIDDEN_SIZE

/-! ## DecodeEngine (ocr_inference.cpp, InferTokens)

Every LiteRT call that can fail is recorded in an oracle: the encoder
stage's write/run/read outcomes, and for each decoder step the outcomes of
the three input writes, the run, and the logits read (`none` = read
failed, `some logits` = the buffer contents read back). -/

structure EngineTrace (F : Type) where
  encoderWriteOk : Bool
  encoderRunOk : Bool
  encoderReadOk : Bool
  decoderWriteHiddenOk : Nat → Bool
  decoderWriteMaskOk : Nat → Bool
  decoderWriteEmbOk : Nat → Bool
  decoderRunOk : Nat → Bool
  decoderRead : Nat → Option (Nat → F)

/-- The autoregressive loop `for (step = 0; step < MAX_SEQUENCE_LENGTH - 1; …)`
of `InferTokens`.  `fuel` is the number of remaining iterations
(`MAX_SEQUENCE_LENGTH - 1` initially), `step` the loop counter, and `acc`
the tokens written to `out_tokens` so far (`token_count = acc.length`).
Any failure breaks out of the loop, returning the accumulated tokens. -/
def decodeLoop {F : Type} (gt : F → F → Bool) (negInf : F)
    (tr : EngineTrace F) (maxTokens : Int) :
    Nat → Nat → List Nat → List Nat
  | 0, _, acc => acc
  | fuel + 1, step, acc =>
    if tr.decoderWriteHiddenOk step = false then acc
    else if tr.decoderWriteMaskOk step = false then acc
    else if tr.decoderWriteEmbOk step = false then acc
    else if tr.decoderRunOk step = false then acc
    else
      match tr.decoderRead step with
      | none => acc
      | some logits =>
        let next := FindMaxLogitToken gt negInf logits acc.length
        if (next : Int) < 0 ∨ next = END_TOKEN_ID then acc
        else
          let acc2 := acc ++ [next]
          if maxTokens ≤ (acc2.length : Int) ∨ MAX_SEQUENCE_LENGTH ≤ acc2.length
          then acc2
          else decodeLoop gt negInf tr maxTokens fuel (step + 1) acc2

/-- Model of `OcrInference::InferTokens` as the sequence of tokens written to
`out_tokens` (the C++ function returns `token_count` and fills the array;
the returned list's length is that count).  The `initialized` flag models
`initialized_ && litert_`.  Encoder-stage failures return the empty
sequence; otherwise decoding starts from `out_tokens[0] = START_TOKEN_ID`. -/
def InferTokens {F : Type} (gt : F → F → Bool) (negInf : F)
    (tr : EngineTrace F) (initialized : Bool) (maxTokens : Int) : List Nat :=
  if initialized = false then []
  else if tr.encoderWriteOk = false then []
  else if tr.encoderRunOk = false then []
  else if tr.encoderReadOk = false then []
  else decodeLoop gt negInf tr maxTokens (MAX_SEQUENCE_LENGTH - 1) 0 [START_TOKEN_ID]

/-! ## Initialization (ocr_inference.cpp, Initialize / TryCompileWithGpu)

Each external call Initialize makes is an oracle field.  The logging-only
steps (`GetGpuOptions`, `SetPrecision`) do not affect control flow and are
elided; the decoder's `SetHardwareAccelerators` return value is read into
an oracle field but — exactly as in the source, which discards it — never
tested. -/

structure InitOracle where
  writeEncTemp : Bool
  writeDecTemp : Bool
  envCreate : Bool
  encOptionsCreate : Bool
  encSetHw : Bool
  encCompile : Bool
  encAccelQuery : Option Bool
  decOptionsCreate : Bool
  decSetHw : Bool
  decCompile : Bool
  decAccelQuery : Option Bool
  encInBufs : Bool
  encOutBufs : Bool
  decInBufs : Bool
  decOutBufs : Bool
  warmupOk : Bool

/-- Milestones of `TryCompileWithGpu`, in the order the code reaches them. -/
inductive IEvent where
  | encCompiled
  | encVerified
  | decCompiled
  | decVerified
deriving DecidableEq

/-- Session-owned resources (held inside `litert_` / moved into it).
Locally scoped compile results that C++ destroys when `TryCompileWithGpu`
returns early are not session-owned and are not tracked here. -/
structure Resources where
  env : Bool
  encoderHandle : Bool
  decoderHandle : Bool
  encInBufs : Bool
  encOutBufs : Bool
  decInBufs : Bool
  decOutBufs : Bool
deriving DecidableEq

def Resources.none : Resources :=
  ⟨false, false, false, false, false, false, false⟩

/-- Model of `OcrInference::TryCompileWithGpu`.  Returns whether it succeeded and
the milestone trace.  The compiled encoder/decoder are moved into
`litert_` only after both verifications pass (source lines 543-544); on
every earlier `return false` they are locals destroyed at scope exit. -/
def TryCompileWithGpu (o : InitOracle) : Bool × List IEvent :=
  if o.encOptionsCreate = false then (false, [])
  else if o.encSetHw = false then (false, [])
  else if o.encCompile = false then (false, [])
  else
    match o.encAccelQuery with
    | none => (false, [.encCompiled])
    | some false => (false, [.encCompiled])
    | some true =>
      if o.decOptionsCreate = false then (false, [.encCompiled, .encVerified])
      else if o.decCompile = false then (false, [.encCompiled, .encVerified])
      else
        match o.decAccelQuery with
        | none => (false, [.encCompiled, .encVerified, .decCompiled])
        | some false => (false, [.encCompiled, .encVerified, .decCompiled])
        | some true =>
          (true, [.encCompiled, .encVerified, .decCompiled, .decVerified])

/-- Result of `Initialize`: the returned `bool`, the final value of
`initialized_`, the session-owned resources still live when the call
returns, and the compile milestones reached. -/
structure InitResult where
  ok : Bool
  ready : Bool
  res : Resources
  events : List IEvent
deriving DecidableEq

/-- Model of `OcrInference::Initialize`, assuming `initialized_` is false on entry.
No failure path releases a session-owned resource before returning: the
`catch` block's `Close()` is a no-op because `initialized_` is still false
at that point, and the plain `return false` paths do not release anything;
resources accumulate monotonically in `litert_`. -/
def Initialize (o : InitOracle) : InitResult :=
  if o.writeEncTemp = false then ⟨false, false, .none, []⟩
  else if o.writeDecTemp = false then ⟨false, false, .none, []⟩
  else if o.envCreate = false then ⟨false, false, .none, []⟩
  else
    let r1 : Resources := { Resources.none with env := true }
    let c := TryCompileWithGpu o
    if c.1 = false then ⟨false, false, r1, c.2⟩
    else
      let r2 := { r1 with encoderHandle := true, decoderHandle := true }
      if o.encInBufs = false then ⟨false, false, r2, c.2⟩
      else
        let r3 := { r2 with encInBufs := true }
        if o.encOutBufs = false then ⟨false, false, r3, c.2⟩
        else
          let r4 := { r3 with encOutBufs := true }
          if o.decInBufs = false then ⟨false, false, r4, c.2⟩
          else
            let r5 := { r4 with decInBufs := true }
            if o.decOutBufs = false then ⟨false, false, r5, c.2⟩
            else
              let r6 := { r5 with decOutBufs := true }
              if o.warmupOk = false then ⟨false, false, r6, c.2⟩
              else ⟨true, true, r6, c.2⟩

/-! ## Concrete instances used to exercise the theorems -/

/-- The strict float comparison `logit > max_logit` over any linearly
ordered value type with a bottom element (`⊥` plays `-inf`). -/
def ltGt {α : Type} [LinearOrder α] (v w : WithBot α) : Bool := decide (w < v)

/-- The strict float comparison `logit > max_logit`, instantiated at the
linearly ordered value type `WithBot Int` (`⊥` plays `-inf`). -/
def gtW (v w : WithBot Int) : Bool := decide (w < v)

/-- A logits buffer whose entries are all `-inf`. -/
def botLogits : Nat → WithBot Int := fun _ => ⊥

/-- A trace in which every engine call succeeds and every logits read
returns the all-`-inf` buffer. -/
def allOkTrace : EngineTrace (WithBot Int) where
  encoderWriteOk := true
  encoderRunOk := true
  encoderReadOk := true
  decoderWriteHiddenOk := fun _ => true
  decoderWriteMaskOk := fun _ => true
  decoderWriteEmbOk := fun _ => true
  decoderRunOk := fun _ => true
  decoderRead := fun _ => some botLogits

/-- A trace whose encoder run fails. -/
def encFailTrace : EngineTrace (WithBot Int) :=
  { allOkTrace with encoderRunOk := false }

/-- A trace whose decoder logits read fails at every step. -/
def readFailTrace : EngineTrace (WithBot Int) :=
  { allOkTrace with decoderRead := fun _ => none }

/-- An oracle for which every external initialization call succeeds. -/
def allOkOracle : InitOracle where
  writeEncTemp := true
  writeDecTemp := true
  envCreate := true
  encOptionsCreate := true
  encSetHw := true
  encCompile := true
  encAccelQuery := some true
  decOptionsCreate := true
  decSetHw := true
  decCompile := true
  decAccelQuery := some true
  encInBufs := true
  encOutBufs := true
  decInBufs := true
  decOutBufs := true
  warmupOk := true

/-- Both compiles succeed but the encoder acceleration query reports a
partially accelerated graph. -/
def partialAccelOracle : InitOracle :=
  { allOkOracle with encAccelQuery := some false }

/-- Compilation fully succeeds but encoder input buffer creation fails. -/
def bufFailOracle : InitOracle :=
  { allOkOracle with encInBufs := false }

end Mihon



namespace Mihon

/-! ## Greedy-argmax lemmas -/

/-- The running best index is always 0 (its initial `PAD_TOKEN_ID` value)
or an index already visited. -/
theorem argmaxGo_zero_or_lt {F : Type} (gt : F → F → Bool) (row : Nat → F) :
    ∀ (n i : Nat) (m : F) (best : Nat), best = 0 ∨ best < i →
      argmaxGo gt row n i m best = 0 ∨ argmaxGo gt row n i m best < i + n := by
  intro n
  induction n with
  | zero =>
    intro i m best h
    exact h.imp (fun h0 => by simpa [argmaxGo] using h0)
      (fun h2 => by simpa [argmaxGo] using by omega)
  | succ n ih =>
    intro i m best h
    rw [argmaxGo]
    split
    · exact (ih (i + 1) (row i) i (Or.inr (by omega))).imp id (fun h2 => by omega)
    · exact (ih (i + 1) m best (h.imp id (fun h2 => by omega))).imp id (fun h2 => by omega)

/-- If the comparison never fires against the initial accumulator, the
initial best index is returned. -/
theorem argmaxGo_no_update {F : Type} (gt : F → F → Bool) (row : Nat → F) :
    ∀ (n i : Nat) (m : F) (best : Nat), (∀ k, gt (row k) m = false) →
      argmaxGo gt row n i m best = best := by
  intro n
  induction n with
  | zero => intro i m best _; rfl
  | succ n ih =>
    intro i m best h
    rw [argmaxGo, if_neg (by simp [h])]
    exact ih (i + 1) m best h

/-- Loop invariant of `FindMaxLogitToken`'s scan over values in a linear
order with bottom: after scanning `n` entries from `i`, some value `m'`
bounds all scanned entries, the returned index is the first index
attaining it (strictly larger than everything before it), and `m'` is
attained unless it is still `⊥`. -/
theorem argmaxGo_first_max {α : Type} [LinearOrder α] (row : Nat → WithBot α) :
    ∀ (n i : Nat) (m : WithBot α) (best : Nat),
      (∀ k, k < i → row k ≤ m) → (∀ k, k < best → row k < m) → best ≤ i →
      (row best = m ∨ (m = ⊥ ∧ best = 0)) →
      ∃ m' : WithBot α,
        (∀ k, k < i + n → row k ≤ m') ∧
        (∀ k, k < argmaxGo ltGt row n i m best → row k < m') ∧
        argmaxGo ltGt row n i m best ≤ i + n ∧
        (row (argmaxGo ltGt row n i m best) = m' ∨
          (m' = ⊥ ∧ argmaxGo ltGt row n i m best = 0)) := by
  intro n
  induction n with
  | zero =>
    intro i m best h1 h2 h3 h4
    exact ⟨m, fun k hk => h1 k (by omega), fun k hk => h2 k (by simpa [argmaxGo] using hk),
      by simpa [argmaxGo] using by omega, by simpa [argmaxGo] using h4⟩
  | succ n ih =>
    intro i m best h1 h2 h3 h4
    rw [argmaxGo]
    split
    · rename_i hlt
      have hmi : m < row i := of_decide_eq_true (by simpa [ltGt] using hlt)
      obtain ⟨m', p1, p2, p3, p4⟩ := ih (i + 1) (row i) i
        (fun k hk => by
          rcases Nat.lt_succ_iff_lt_or_eq.mp hk with hk | hk
          · exact le_of_lt (lt_of_le_of_lt (h1 k hk) hmi)
          · exact le_of_eq (by rw [hk]))
        (fun k hk => lt_of_le_of_lt (h1 k hk) hmi)
        (by omega) (Or.inl rfl)
      exact ⟨m', fun k hk => p1 k (by omega), p2, by omega, p4⟩
    · rename_i hge
      have hmi : row i ≤ m := le_of_not_lt (by simpa [ltGt] using hge)
      obtain ⟨m', p1, p2, p3, p4⟩ := ih (i + 1) m best
        (fun k hk => by
          rcases Nat.lt_succ_iff_lt_or_eq.mp hk with hk | hk
          · exact h1 k hk
          · exact le_of_eq_of_le (by rw [hk]) hmi)
        h2 (by omega) h4
      exact ⟨m', fun k hk => p1 k (by omega), p2, by omega, p4⟩

/-- C10: for every logits buffer and every comparison behaviour of the
float values (covering all-equal rows, infinities and NaNs, for which
every comparison is false), `FindMaxLogitToken` returns a token id in
`[0, VOCAB_SIZE)`; hence the `next_token < 0` stop branch of the decode
loop cannot fire, and the `UpdateEmbedding` read for the selected token
stays within the `VOCAB_SIZE × HIDDEN_SIZE` embedding table. -/
theorem FindMaxLogitToken_in_range {F : Type} (gt : F → F → Bool) (negInf : F)
    (logits : Nat → F) (seqLen : Nat) :
    FindMaxLogitToken gt negInf logits seqLen < VOCAB_SIZE ∧
    ¬ ((FindMaxLogitToken gt negInf logits seqLen : Int) < 0) ∧
    embedReadEnd (FindMaxLogitToken gt negInf logits seqLen) ≤ VOCAB_SIZE * HIDDEN_SIZE := by
  have h := argmaxGo_zero_or_lt gt
    (fun vocabIdx => logits ((seqLen - 1) * VOCAB_SIZE + vocabIdx))
    VOCAB_SIZE 0 negInf PAD_TOKEN_ID (Or.inl rfl)
  rw [FindMaxLogitToken]
  refine ⟨?_, not_lt.mpr (Int.natCast_nonneg _), ?_⟩
  · rcases h with h | h
    · rw [h]; norm_num [VOCAB_SIZE]
    · simpa using h
  · have hlt : argmaxGo gt
        (fun vocabIdx => logits ((seqLen - 1) * VOCAB_SIZE + vocabIdx))
        VOCAB_SIZE 0 negInf PAD_TOKEN_ID < VOCAB_SIZE := by
      rcases h with h | h
      · rw [h]; norm_num [VOCAB_SIZE]
      · simpa using h
    rw [embedReadEnd]
    calc argmaxGo gt (fun vocabIdx => logits ((seqLen - 1) * VOCAB_SIZE + vocabIdx))
          VOCAB_SIZE 0 negInf PAD_TOKEN_ID * HIDDEN_SIZE + HIDDEN_SIZE
        = (argmaxGo gt (fun vocabIdx => logits ((seqLen - 1) * VOCAB_SIZE + vocabIdx))
            VOCAB_SIZE 0 negInf PAD_TOKEN_ID + 1) * HIDDEN_SIZE := by ring
      _ ≤ VOCAB_SIZE * HIDDEN_SIZE := Nat.mul_le_mul_right _ (by omega)

/-- C4: at each decode step the next token is computed by a strict
greater-than scan of the `VOCAB_SIZE` logits of row `position − 1`
(`FindMaxLogitToken` is called with `seq_len = token_count`); over any
linearly ordered logit values the selected index attains the row maximum
and every earlier index is strictly below it — the first index attaining
the maximum wins ties. -/
theorem FindMaxLogitToken_first_argmax {α : Type} [LinearOrder α]
    (logits : Nat → WithBot α) (seqLen : Nat) :
    (∀ k, k < VOCAB_SIZE →
      logits ((seqLen - 1) * VOCAB_SIZE + k) ≤
        logits ((seqLen - 1) * VOCAB_SIZE +
          FindMaxLogitToken ltGt ⊥ logits seqLen)) ∧
    (∀ k, k < FindMaxLogitToken ltGt ⊥ logits seqLen →
      logits ((seqLen - 1) * VOCAB_SIZE + k) <
        logits ((seqLen - 1) * VOCAB_SIZE +
          FindMaxLogitToken ltGt ⊥ logits seqLen)) := by
  obtain ⟨m', p1, p2, p3, p4⟩ := argmaxGo_first_max
    (fun vocabIdx => logits ((seqLen - 1) * VOCAB_SIZE + vocabIdx))
    VOCAB_SIZE 0 ⊥ PAD_TOKEN_ID
    (by omega) (by norm_num [PAD_TOKEN_ID]) (by norm_num [PAD_TOKEN_ID])
    (Or.inr ⟨rfl, by norm_num [PAD_TOKEN_ID]⟩)
  rw [FindMaxLogitToken]
  rcases p4 with p4 | p4
  · exact ⟨fun k hk => by simpa using le_of_le_of_eq (p1 k (by omega)) p4.symm,
      fun k hk => by simpa using lt_of_lt_of_eq (p2 k hk) p4.symm⟩
  · constructor
    · intro k hk
      have hb : logits ((seqLen - 1) * VOCAB_SIZE + k) = ⊥ :=
        le_bot_iff.mp (p4.1 ▸ p1 k (by omega))
      have h0 : logits ((seqLen - 1) * VOCAB_SIZE +
          argmaxGo ltGt
            (fun vocabIdx => logits ((seqLen - 1) * VOCAB_SIZE + vocabIdx))
            VOCAB_SIZE 0 ⊥ PAD_TOKEN_ID) = ⊥ := by
        rw [p4.2]
        exact le_bot_iff.mp (p4.1 ▸ p1 0 (by norm_num [VOCAB_SIZE]))
      rw [hb, h0]
    · intro k hk
      rw [p4.2] at hk
      exact absurd hk (by omega)

end Mihon

namespace Mihon

/-! ## Decode-loop lemmas -/

/-- Every exit of the decode loop returns the accumulated tokens possibly
extended — the loop only ever appends. -/
theorem decodeLoop_extends {F : Type} (gt : F → F → Bool) (negInf : F)
    (tr : EngineTrace F) (mt : Int) :
    ∀ (fuel step : Nat) (acc : List Nat),
      ∃ ext, decodeLoop gt negInf tr mt fuel step acc = acc ++ ext := by
  intro fuel
  induction fuel with
  | zero => intro step acc; exact ⟨[], by simp [decodeLoop]⟩
  | succ fuel ih =>
    intro step acc
    simp only [decodeLoop]
    repeat' split
    · exact ⟨[], (List.append_nil acc).symm⟩
    · exact ⟨[], (List.append_nil acc).symm⟩
    · exact ⟨[], (List.append_nil acc).symm⟩
    · exact ⟨[], (List.append_nil acc).symm⟩
    · exact ⟨[], (List.append_nil acc).symm⟩
    · exact ⟨[], (List.append_nil acc).symm⟩
    · exact ⟨_, rfl⟩
    · rename_i x logits heq hEnd hStop
      obtain ⟨ext, hext⟩ := ih (step + 1)
        (acc ++ [FindMaxLogitToken gt negInf logits acc.length])
      exact ⟨[FindMaxLogitToken gt negInf logits acc.length] ++ ext,
        by rw [hext, List.append_assoc]⟩

/-- The decode loop never grows the token sequence past `max_tokens` or
`MAX_SEQUENCE_LENGTH` when it enters strictly below both bounds. -/
theorem decodeLoop_length_bound {F : Type} (gt : F → F → Bool) (negInf : F)
    (tr : EngineTrace F) (mt : Int) :
    ∀ (fuel step : Nat) (acc : List Nat),
      (acc.length : Int) < mt → acc.length < MAX_SEQUENCE_LENGTH →
      ((decodeLoop gt negInf tr mt fuel step acc).length : Int) ≤ mt ∧
      (decodeLoop gt negInf tr mt fuel step acc).length ≤ MAX_SEQUENCE_LENGTH := by
  intro fuel
  induction fuel with
  | zero =>
    intro step acc h1 h2
    simp only [decodeLoop]
    omega
  | succ fuel ih =>
    intro step acc h1 h2
    simp only [decodeLoop]
    repeat' split
    any_goals omega
    · rename_i x logits heq hEnd hStop
      simp only [List.length_append, List.length_singleton] at hStop ⊢
      omega
    · rename_i x logits heq hEnd hStop
      simp only [List.length_append, List.length_singleton] at hStop
      refine ih (step + 1) _ ?_ ?_ <;>
        simp only [List.length_append, List.length_singleton] <;> omega

/-- C1 (amended: for `max_tokens ≥ 2`): a call that passes the encoder
stage returns between 1 and `min max_tokens MAX_SEQUENCE_LENGTH` tokens.
(For `max_tokens ≤ 1` the code can return 2 tokens, exceeding the bound —
see the counterexample.) -/
theorem InferTokens_length_bounds {F : Type} (gt : F → F → Bool) (negInf : F)
    (tr : EngineTrace F) (maxTokens : Int)
    (h1 : tr.encoderWriteOk = true) (h2 : tr.encoderRunOk = true)
    (h3 : tr.encoderReadOk = true) (hmt : 2 ≤ maxTokens) :
    1 ≤ (InferTokens gt negInf tr true maxTokens).length ∧
    ((InferTokens gt negInf tr true maxTokens).length : Int) ≤
      min maxTokens (MAX_SEQUENCE_LENGTH : Int) := by
  rw [InferTokens, if_neg (by simp), if_neg (by simp [h1]), if_neg (by simp [h2]),
    if_neg (by simp [h3])]
  obtain ⟨ext, hext⟩ :=
    decodeLoop_extends gt negInf tr maxTokens (MAX_SEQUENCE_LENGTH - 1) 0 [START_TOKEN_ID]
  have hb := decodeLoop_length_bound gt negInf tr maxTokens (MAX_SEQUENCE_LENGTH - 1) 0
    [START_TOKEN_ID] (by simp; omega) (by norm_num [MAX_SEQUENCE_LENGTH])
  refine ⟨by rw [hext]; simp, le_min hb.1 ?_⟩
  exact_mod_cast Int.ofNat_le.mpr hb.2

/-- Witness for C1 at `max_tokens = 40` on the all-success trace. -/
theorem InferTokens_length_bounds_witness :
    (allOkTrace.encoderWriteOk = true ∧ allOkTrace.encoderRunOk = true ∧
     allOkTrace.encoderReadOk = true ∧ (2 : Int) ≤ 40) ∧
    (1 ≤ (InferTokens gtW ⊥ allOkTrace true 40).length ∧
     ((InferTokens gtW ⊥ allOkTrace true 40).length : Int) ≤
       min (40 : Int) (MAX_SEQUENCE_LENGTH : Int)) :=
  ⟨⟨rfl, rfl, rfl, by norm_num⟩,
   InferTokens_length_bounds gtW ⊥ allOkTrace 40 rfl rfl rfl (by norm_num)⟩

/-- On the all-`-inf` logits row the scan never updates and returns
`PAD_TOKEN_ID`. -/
theorem FindMaxLogitToken_botLogits (seqLen : Nat) :
    FindMaxLogitToken gtW ⊥ botLogits seqLen = PAD_TOKEN_ID :=
  argmaxGo_no_update _ _ _ _ _ _ (fun k => by simp [gtW, botLogits])

/-- C1 counterexample: with `max_tokens = 1` (a value the claim
quantifies over) and a first decode step that selects a non-END token,
the call returns 2 tokens, violating
`length ≤ min max_tokens MAX_SEQUENCE_LENGTH = 1`. -/
theorem InferTokens_length_bounds_counterexample :
    ¬ (((InferTokens gtW ⊥ allOkTrace true 1).length : Int) ≤
        min (1 : Int) (MAX_SEQUENCE_LENGTH : Int)) := by
  have hres : InferTokens gtW ⊥ allOkTrace true 1 = [START_TOKEN_ID, PAD_TOKEN_ID] := by
    rw [InferTokens, if_neg (by simp), if_neg (by simp [allOkTrace]),
      if_neg (by simp [allOkTrace]), if_neg (by simp [allOkTrace])]
    show decodeLoop gtW ⊥ allOkTrace 1 (298 + 1) 0 [START_TOKEN_ID] = _
    rw [decodeLoop]
    norm_num [allOkTrace, botLogits, FindMaxLogitToken_botLogits, END_TOKEN_ID,
      PAD_TOKEN_ID, START_TOKEN_ID, MAX_SEQUENCE_LENGTH]
  rw [hres]
  norm_num [MAX_SEQUENCE_LENGTH]

end Mihon

namespace Mihon

/-- C3: `InferTokens` never propagates an error.  An encoder-stage failure
(input write, run, or output read) yields the empty result; any
write/run/read failure inside the decode loop makes that iteration return
the accumulated tokens unchanged (it breaks immediately); and a call that
passes the encoder stage returns at least one token rather than an error. -/
theorem InferTokens_error_recovery {F : Type} (gt : F → F → Bool) (negInf : F)
    (tr : EngineTrace F) (mt : Int) :
    ((tr.encoderWriteOk = false ∨ tr.encoderRunOk = false ∨ tr.encoderReadOk = false) →
      InferTokens gt negInf tr true mt = []) ∧
    (∀ (fuel step : Nat) (acc : List Nat),
      (tr.decoderWriteHiddenOk step = false ∨ tr.decoderWriteMaskOk step = false ∨
       tr.decoderWriteEmbOk step = false ∨ tr.decoderRunOk step = false ∨
       tr.decoderRead step = none) →
      decodeLoop gt negInf tr mt (fuel + 1) step acc = acc) ∧
    (tr.encoderWriteOk = true → tr.encoderRunOk = true → tr.encoderReadOk = true →
      1 ≤ (InferTokens gt negInf tr true mt).length) := by
  refine ⟨?_, ?_, ?_⟩
  · intro h
    rw [InferTokens]
    rcases h with h | h | h <;> simp [h]
  · intro fuel step acc h
    simp only [decodeLoop]
    rcases h with h | h | h | h | h <;> simp [h]
  · intro h1 h2 h3
    rw [InferTokens, if_neg (by simp), if_neg (by simp [h1]), if_neg (by simp [h2]),
      if_neg (by simp [h3])]
    obtain ⟨ext, hext⟩ :=
      decodeLoop_extends gt negInf tr mt (MAX_SEQUENCE_LENGTH - 1) 0 [START_TOKEN_ID]
    rw [hext]
    simp

/-- Witness for C3: the encoder-failure trace returns the empty sequence;
a loop iteration whose logits read fails returns the accumulator; the
all-success trace returns at least one token. -/
theorem InferTokens_error_recovery_witness :
    ((encFailTrace.encoderWriteOk = false ∨ encFailTrace.encoderRunOk = false ∨
      encFailTrace.encoderReadOk = false) ∧
     InferTokens gtW ⊥ encFailTrace true 40 = []) ∧
    ((readFailTrace.decoderWriteHiddenOk 0 = false ∨
      readFailTrace.decoderWriteMaskOk 0 = false ∨
      readFailTrace.decoderWriteEmbOk 0 = false ∨
      readFailTrace.decoderRunOk 0 = false ∨ readFailTrace.decoderRead 0 = none) ∧
     decodeLoop gtW ⊥ readFailTrace 40 (298 + 1) 0 [START_TOKEN_ID] = [START_TOKEN_ID]) ∧
    (1 ≤ (InferTokens gtW ⊥ allOkTrace true 40).length) :=
  ⟨⟨Or.inr (Or.inl rfl),
    (InferTokens_error_recovery gtW ⊥ encFailTrace 40).1 (Or.inr (Or.inl rfl))⟩,
   ⟨Or.inr (Or.inr (Or.inr (Or.inr rfl))),
    (InferTokens_error_recovery gtW ⊥ readFailTrace 40).2.1 298 0 [START_TOKEN_ID]
      (Or.inr (Or.inr (Or.inr (Or.inr rfl))))⟩,
   (InferTokens_error_recovery gtW ⊥ allOkTrace 40).2.2 rfl rfl rfl⟩

/-- C8: the returned sequence is empty exactly on a pre-loop failure (the
session not being initialized, or an encoder-stage write/run/read
failure), and a non-empty returned sequence always starts with
`START_TOKEN`. -/
theorem InferTokens_start_token {F : Type} (gt : F → F → Bool) (negInf : F)
    (tr : EngineTrace F) (initialized : Bool) (mt : Int) :
    (InferTokens gt negInf tr initialized mt = [] ↔
      (initialized = false ∨ tr.encoderWriteOk = false ∨ tr.encoderRunOk = false ∨
        tr.encoderReadOk = false)) ∧
    (InferTokens gt negInf tr initialized mt ≠ [] →
      (InferTokens gt negInf tr initialized mt).head? = some START_TOKEN_ID) := by
  obtain ⟨ext, hext⟩ :=
    decodeLoop_extends gt negInf tr mt (MAX_SEQUENCE_LENGTH - 1) 0 [START_TOKEN_ID]
  rw [InferTokens]
  cases initialized
  · simp
  · cases hw : tr.encoderWriteOk
    · simp
    · cases hr : tr.encoderRunOk
      · simp
      · cases hrd : tr.encoderReadOk
        · simp
        · rw [if_neg (by simp), if_neg (by simp), if_neg (by simp), if_neg (by simp), hext]
          simp

/-- Witness for C8: on the all-success trace the sequence is non-empty and
starts with `START_TOKEN`; on the encoder-failure trace it is empty. -/
theorem InferTokens_start_token_witness :
    (InferTokens gtW ⊥ allOkTrace true 40 ≠ [] →
      (InferTokens gtW ⊥ allOkTrace true 40).head? = some START_TOKEN_ID) ∧
    (InferTokens gtW ⊥ encFailTrace true 40 = [] ↔
      ((true : Bool) = false ∨ encFailTrace.encoderWriteOk = false ∨
        encFailTrace.encoderRunOk = false ∨ encFailTrace.encoderReadOk = false)) :=
  ⟨(InferTokens_start_token gtW ⊥ allOkTrace true 40).2,
   (InferTokens_start_token gtW ⊥ encFailTrace true 40).1⟩

end Mihon

namespace Mihon

/-! ## Initialization lemmas -/

/-- Success characterization: `TryCompileWithGpu` succeeds exactly when every checked step succeeds
and both acceleration queries answer `some true`. -/
theorem TryCompileWithGpu_ok_iff (o : InitOracle) :
    (TryCompileWithGpu o).1 = true ↔
      o.encOptionsCreate = true ∧ o.encSetHw = true ∧ o.encCompile = true ∧
      o.encAccelQuery = some true ∧ o.decOptionsCreate = true ∧
      o.decCompile = true ∧ o.decAccelQuery = some true := by
  rw [TryCompileWithGpu]
  repeat' split <;> simp_all

/-- C2: if a model compiles but its full-acceleration query answers
`false` or fails, `Initialize` returns `false` and the session never
becomes ready; moreover, in every run the decoder is compiled only after
the encoder has been compiled and verified (the `encVerified` milestone
strictly precedes `decCompiled` in the event trace). -/
theorem Initialize_accel_gating (o : InitOracle)
    (h : (o.encCompile = true ∧ o.encAccelQuery ≠ some true) ∨
         (o.decCompile = true ∧ o.decAccelQuery ≠ some true)) :
    ((Initialize o).ok = false ∧ (Initialize o).ready = false) ∧
    (∀ o' : InitOracle, IEvent.decCompiled ∈ (TryCompileWithGpu o').2 →
      IEvent.encVerified ∈ (TryCompileWithGpu o').2 ∧
      (TryCompileWithGpu o').2.indexOf IEvent.encVerified <
        (TryCompileWithGpu o').2.indexOf IEvent.decCompiled) := by
  constructor
  · have hc : (TryCompileWithGpu o).1 = false := by
      rcases Bool.eq_false_or_eq_true (TryCompileWithGpu o).1 with hc | hc
      · rcases (TryCompileWithGpu_ok_iff o).mp hc with ⟨_, _, _, h4, _, _, h7⟩
        rcases h with ⟨_, hne⟩ | ⟨_, hne⟩
        · exact absurd h4 hne
        · exact absurd h7 hne
      · exact hc
    rw [Initialize]
    repeat' split <;> simp_all
  · intro o'
    rw [TryCompileWithGpu]
    repeat' split
    all_goals intro hmem
    all_goals first
      | exact absurd hmem (by decide)
      | exact ⟨by decide, by decide⟩

/-- Witness for C2: both compiles succeed but the encoder is only
partially accelerated; initialization fails and the session is not ready. -/
theorem Initialize_accel_gating_witness :
    ((partialAccelOracle.encCompile = true ∧
      partialAccelOracle.encAccelQuery ≠ some true) ∨
     (partialAccelOracle.decCompile = true ∧
      partialAccelOracle.decAccelQuery ≠ some true)) ∧
    ((Initialize partialAccelOracle).ok = false ∧
     (Initialize partialAccelOracle).ready = false) :=
  ⟨Or.inl ⟨rfl, by decide⟩,
   (Initialize_accel_gating partialAccelOracle (Or.inl ⟨rfl, by decide⟩)).1⟩

/-- C9 counterexample: compilation fully succeeds, then encoder input
buffer creation fails.  `Initialize` returns failure, yet the environment
and both compiled model handles are still held by the session when it
returns — nothing was released. -/
theorem Initialize_release_counterexample :
    (Initialize bufFailOracle).ok = false ∧
    (Initialize bufFailOracle).res.env = true ∧
    (Initialize bufFailOracle).res.encoderHandle = true ∧
    (Initialize bufFailOracle).res.decoderHandle = true := by decide

/-- The flag `initialized_` after the call always agrees with the returned bool. -/
theorem Initialize_ready_eq_ok (o : InitOracle) :
    (Initialize o).ready = (Initialize o).ok := by
  simp only [Initialize]
  repeat' split
  all_goals rfl

/-- After a successful compile, the environment and both compiled handles
are session-owned and remain held in every later outcome of `Initialize`. -/
theorem Initialize_res_after_compile (o : InitOracle)
    (hc : (TryCompileWithGpu o).1 = true) (h1 : o.writeEncTemp = true)
    (h2 : o.writeDecTemp = true) (h3 : o.envCreate = true) :
    (Initialize o).res.env = true ∧ (Initialize o).res.encoderHandle = true ∧
    (Initialize o).res.decoderHandle = true := by
  simp only [Initialize, h1, h2, h3, hc, Bool.true_eq_false, if_false]
  repeat' split
  all_goals exact ⟨rfl, rfl, rfl⟩

/-- C9 (amended): whenever `Initialize` returns failure the session is not
ready (`initialized_` stays false); session-owned resources acquired
before the failing step are not released before `Initialize` returns — on
any failure after a successful compile, the environment and both compiled
handles are still held (release happens only at object destruction, or
via `Close` after a successful initialization). -/
theorem Initialize_failure_not_ready (o : InitOracle)
    (h : (Initialize o).ok = false) :
    (Initialize o).ready = false ∧
    ((TryCompileWithGpu o).1 = true → o.writeEncTemp = true →
      o.writeDecTemp = true → o.envCreate = true →
      (Initialize o).res.env = true ∧ (Initialize o).res.encoderHandle = true ∧
      (Initialize o).res.decoderHandle = true) :=
  ⟨(Initialize_ready_eq_ok o).trans h,
   fun hc h1 h2 h3 => Initialize_res_after_compile o hc h1 h2 h3⟩

/-- Witness for C9 at the buffer-creation-failure oracle. -/
theorem Initialize_failure_not_ready_witness :
    (Initialize bufFailOracle).ok = false ∧
    ((Initialize bufFailOracle).ready = false ∧
     ((TryCompileWithGpu bufFailOracle).1 = true → bufFailOracle.writeEncTemp = true →
      bufFailOracle.writeDecTemp = true → bufFailOracle.envCreate = true →
      (Initialize bufFailOracle).res.env = true ∧
      (Initialize bufFailOracle).res.encoderHandle = true ∧
      (Initialize bufFailOracle).res.decoderHandle = true)) :=
  ⟨by decide, Initialize_failure_not_ready bufFailOracle (by decide)⟩

end Mihon

namespace Mihon

/-! ## Token-decoder lemmas -/

/-- The filter the decoder loop implements: keep exactly the ids in
`[SPECIAL_TOKEN_THRESHOLD, vocab.length)`. -/
theorem decodeTokensGo_spec (vocab : List (List Nat)) :
    ∀ (ids : List Int) (res : List Nat),
      decodeTokensGo vocab ids res =
        res ++ ((ids.filter fun tokenId =>
            decide (SPECIAL_TOKEN_THRESHOLD ≤ tokenId ∧
              tokenId < (vocab.length : Int))).map
          fun tokenId => vocab.getD tokenId.toNat []).flatten := by
  intro ids
  induction ids with
  | nil => intro res; simp [decodeTokensGo]
  | cons tokenId rest ih =>
    intro res
    rw [decodeTokensGo]
    split
    · rename_i hlt
      rw [ih, List.filter_cons_of_neg (by simp; omega)]
    · rename_i hge
      split
      · rename_i hin
        rw [ih, List.filter_cons_of_pos (by simp; omega), List.map_cons,
          List.flatten_cons, List.append_assoc]
      · rename_i hout
        rw [ih, List.filter_cons_of_neg (by simp; omega)]

/-- C7: for every vocabulary and every token sequence, `nativeDecodeTokens`
returns the plain concatenation, in input order, of `Vocabulary[id]` for
exactly those ids with `SPECIAL_TOKEN_THRESHOLD ≤ id < vocabulary size`;
ids below the threshold and ids at or beyond the vocabulary size (and the
empty-vocabulary case) contribute nothing, and no input is an error. -/
theorem nativeDecodeTokens_spec (vocab : List (List Nat)) (tokenIds : List Int) :
    nativeDecodeTokens vocab tokenIds =
      ((tokenIds.filter fun tokenId =>
          decide (SPECIAL_TOKEN_THRESHOLD ≤ tokenId ∧
            tokenId < (vocab.length : Int))).map
        fun tokenId => vocab.getD tokenId.toNat []).flatten := by
  rw [nativeDecodeTokens]
  split
  · rename_i hnil
    subst hnil
    rw [List.filter_eq_nil_iff.mpr]
    · simp
    · intro tokenId hmem
      simp [SPECIAL_TOKEN_THRESHOLD]
      omega
  · rw [decodeTokensGo_spec vocab tokenIds []]
    simp

end Mihon

namespace Mihon

/-! ## Text-postprocessor lemmas -/

/-- Ground facts about the conversion table, checked over all 127 entries:
on a non-whitespace input the table output is never whitespace, never the
ellipsis, never a dot unless the input was the ASCII dot, and is again a
fixed point of the table whenever it lands below `TABLE_SIZE`. -/
theorem halfToFullTable_props :
    ∀ c, c < TABLE_SIZE → wsChar c = false →
      wsChar (halfToFullTable c) = false ∧ halfToFullTable c ≠ ellipsisCp ∧
      (isDot c = false → isDot (halfToFullTable c) = false) ∧
      (halfToFullTable c < TABLE_SIZE →
        halfToFullTable (halfToFullTable c) = halfToFullTable c) := by decide

/-- The first element surviving `dropWhile isDot` is not a dot. -/
theorem head_dropWhile_not_dot (l : List Nat) :
    ∀ h, (l.dropWhile isDot).head? = some h → isDot h = false := by
  induction l with
  | nil => simp
  | cons c v ih =>
    cases hc : isDot c
    · rw [List.dropWhile_cons_of_neg (by simp [hc])]
      intro h hh
      simp only [List.head?_cons, Option.some_inj] at hh
      rwa [← hh]
    · rw [List.dropWhile_cons_of_pos (by simp [hc])]
      exact ih

/-- A: the output of `postprocess` contains no whitespace and no ellipsis
code point. -/
theorem postprocess_no_ws (t : List Nat) :
    ∀ c ∈ postprocess t, wsChar c = false ∧ c ≠ ellipsisCp := by
  induction t using postprocess.induct with
  | case1 => simp [postprocess]
  | case2 c rest h ih =>
    rw [postprocess, if_pos h]
    exact ih
  | case3 rest h ih =>
    rw [postprocess, if_neg h, if_pos rfl]
    intro x hx
    simp only [List.mem_cons] at hx
    rcases hx with hx | hx | hx | hx
    · subst hx; exact ⟨by decide, by decide⟩
    · subst hx; exact ⟨by decide, by decide⟩
    · subst hx; exact ⟨by decide, by decide⟩
    · exact ih x hx
  | case4 c rest h hell hcond ih =>
    rw [postprocess, if_neg h, if_neg hell, if_pos hcond]
    intro x hx
    rcases List.mem_append.mp hx with hx | hx
    · have hx46 := List.eq_of_mem_replicate hx
      subst hx46
      exact ⟨by decide, by decide⟩
    · exact ih x hx
  | case5 c rest h hell hcond ih =>
    rw [postprocess, if_neg h, if_neg hell, if_neg hcond]
    intro x hx
    rcases List.mem_cons.mp hx with hx | hx
    · subst hx
      rw [halfToFullConvert]
      split
      · rename_i hlt
        have hp := halfToFullTable_props c hlt (Bool.not_eq_true _ ▸ h)
        exact ⟨hp.1, hp.2.1⟩
      · exact ⟨Bool.not_eq_true _ ▸ h, hell⟩
    · exact ih x hx

/-- The head of a postprocessed whitespace-free, ellipsis-free,
dot-free-headed list is not a dot. -/
theorem postprocess_head_not_dot (u : List Nat)
    (hq : ∀ c ∈ u, wsChar c = false ∧ c ≠ ellipsisCp)
    (hhead : ∀ h, u.head? = some h → isDot h = false) :
    ∀ h, (postprocess u).head? = some h → isDot h = false := by
  cases u with
  | nil => simp [postprocess]
  | cons c v =>
    have hc := hq c (List.mem_cons_self c v)
    have hcd : isDot c = false := hhead c rfl
    rw [postprocess, if_neg (by simp [hc.1]), if_neg hc.2,
      if_neg (by simp [hcd])]
    intro h hh
    simp only [List.head?_cons, Option.some_inj] at hh
    subst hh
    rw [halfToFullConvert]
    split
    · rename_i hlt
      exact (halfToFullTable_props c hlt hc.1).2.2.1 hcd
    · exact hcd

/-- Applying `takeWhile isDot` to a list with a dot-free head gives the empty list. -/
theorem takeWhile_isDot_nil (u : List Nat)
    (hhead : ∀ h, u.head? = some h → isDot h = false) :
    u.takeWhile isDot = [] := by
  cases u with
  | nil => rfl
  | cons c v => exact List.takeWhile_cons_of_neg (by simp [hhead c rfl])

/-- Prepending a run of `k ≥ 2` ASCII dots to a dot-free-headed list
preserves canonical form. -/
theorem CanonB_dots (k : Nat) (hk : 2 ≤ k) (u : List Nat)
    (hhead : ∀ h, u.head? = some h → isDot h = false) :
    CanonB (List.replicate k 46 ++ u) = CanonB u := by
  have htake : ∀ m, (List.replicate m 46 ++ u).takeWhile isDot = List.replicate m 46 := by
    intro m
    induction m with
    | zero => simpa using takeWhile_isDot_nil u hhead
    | succ m ih =>
      rw [List.replicate_succ, List.cons_append,
        List.takeWhile_cons_of_pos (by decide), ih]
  have hdrop : ∀ m, (List.replicate m 46 ++ u).dropWhile isDot = u := by
    intro m
    induction m with
    | zero =>
      simp only [List.replicate, List.nil_append]
      cases u with
      | nil => rfl
      | cons c v => exact List.dropWhile_cons_of_neg (by simp [hhead c rfl])
    | succ m ih =>
      rw [List.replicate_succ, List.cons_append,
        List.dropWhile_cons_of_pos (by decide)]
      exact ih
  obtain ⟨m, rfl⟩ : ∃ m, k = m + 1 := ⟨k - 1, by omega⟩
  rw [List.replicate_succ, List.cons_append, CanonB]
  rw [if_neg (by decide), if_neg (by decide), if_pos (by decide)]
  rw [htake m, List.length_replicate, if_pos (by omega)]
  rw [hdrop m]
  have hall : ((46 :: (List.replicate m 46 ++ u)).takeWhile isDot).all
      (fun d => d == 46) = true := by
    rw [List.takeWhile_cons_of_pos (by decide), htake m]
    simp [List.all_eq_true, List.eq_of_mem_replicate]
  rw [hall, Bool.true_and]

/-- Prepending a canonical non-dot code point preserves canonical form. -/
theorem CanonB_cons_nondot (x : Nat) (u : List Nat)
    (hws : wsChar x = false) (hell : x ≠ ellipsisCp) (hdot : isDot x = false)
    (hfix : x < TABLE_SIZE → halfToFullTable x = x) :
    CanonB (x :: u) = CanonB u := by
  rw [CanonB, if_neg (by simp [hws]), if_neg hell, if_neg (by simp [hdot])]
  have : (if x < TABLE_SIZE then halfToFullTable x == x else true) = true := by
    split
    · rename_i hlt
      simp [hfix hlt]
    · rfl
  rw [this, Bool.true_and]

/-- Prepending a single `・` before a dot-free-headed list preserves
canonical form. -/
theorem CanonB_cons_middot (u : List Nat)
    (hhead : ∀ h, u.head? = some h → isDot h = false) :
    CanonB (12539 :: u) = CanonB u := by
  rw [CanonB, if_neg (by decide), if_neg (by decide), if_pos (by decide),
    takeWhile_isDot_nil u hhead]
  simp

end Mihon

namespace Mihon

/-- B: the output of `postprocess` on whitespace-free, ellipsis-free input
is in canonical form. -/
theorem CanonB_postprocess :
    ∀ s : List Nat, (∀ c ∈ s, wsChar c = false ∧ c ≠ ellipsisCp) →
      CanonB (postprocess s) = true := by
  intro s
  induction s using postprocess.induct with
  | case1 => intro _; simp [postprocess, CanonB]
  | case2 c rest h ih =>
    intro hq
    exact absurd (hq c (List.mem_cons_self c rest)).1 (by simp [h])
  | case3 rest h ih =>
    intro hq
    exact absurd (hq ellipsisCp (List.mem_cons_self _ rest)).2 (by simp)
  | case4 c rest h hell hcond ih =>
    intro hq
    have hqdrop : ∀ x ∈ rest.dropWhile isDot, wsChar x = false ∧ x ≠ ellipsisCp :=
      fun x hx =>
        hq x (List.mem_cons_of_mem c ((List.dropWhile_sublist isDot).subset hx))
    rw [postprocess, if_neg h, if_neg hell, if_pos hcond]
    rw [CanonB_dots _ (by omega) _
      (postprocess_head_not_dot _ hqdrop (head_dropWhile_not_dot rest))]
    exact ih hqdrop
  | case5 c rest h hell hcond ih =>
    intro hq
    have hqrest : ∀ x ∈ rest, wsChar x = false ∧ x ≠ ellipsisCp :=
      fun x hx => hq x (List.mem_cons_of_mem c hx)
    rw [postprocess, if_neg h, if_neg hell, if_neg hcond]
    by_cases hd : isDot c = true
    · have hrun : rest.takeWhile isDot = [] := by
        rcases htw : rest.takeWhile isDot with _ | ⟨r, rs⟩
        · rfl
        · refine absurd ⟨hd, ?_⟩ hcond
          rw [htw, List.length_cons]
          omega
      have hrest_head : ∀ hh, rest.head? = some hh → isDot hh = false := by
        intro hh hhh
        cases rest with
        | nil => simp at hhh
        | cons r rs =>
          simp only [List.head?_cons, Option.some_inj] at hhh
          cases hv : isDot r with
          | false => rw [← hhh]; exact hv
          | true =>
            rw [List.takeWhile_cons_of_pos hv] at hrun
            simp at hrun
      have hc2 : c = 46 ∨ c = 12539 := by
        have := hd
        simp only [isDot, Bool.or_eq_true, beq_iff_eq] at this
        exact this
      rcases hc2 with rfl | rfl
      · rw [show halfToFullConvert 46 = 65294 from by decide]
        rw [CanonB_cons_nondot 65294 _ (by decide) (by decide) (by decide)
          (fun hlt => absurd hlt (by decide))]
        exact ih hqrest
      · rw [show halfToFullConvert 12539 = 12539 from by decide]
        rw [CanonB_cons_middot _
          (postprocess_head_not_dot _ hqrest hrest_head)]
        exact ih hqrest
    · have hd' : isDot c = false := by simpa using hd
      have hcq := hq c (List.mem_cons_self c rest)
      rw [halfToFullConvert]
      split
      · rename_i hlt
        have hp := halfToFullTable_props c hlt hcq.1
        rw [CanonB_cons_nondot _ _ hp.1 hp.2.1 (hp.2.2.1 hd') hp.2.2.2]
        exact ih hqrest
      · rename_i hge
        rw [CanonB_cons_nondot c _ hcq.1 hcq.2 hd' (fun hlt => absurd hlt hge)]
        exact ih hqrest

/-- C: a list in canonical form is a fixed point of `postprocess`. -/
theorem postprocess_of_CanonB :
    ∀ l : List Nat, CanonB l = true → postprocess l = l := by
  intro l
  induction l using postprocess.induct with
  | case1 => intro _; simp [postprocess]
  | case2 c rest h ih =>
    intro hc
    rw [CanonB, if_pos h] at hc
    exact absurd hc (by simp)
  | case3 rest h ih =>
    intro hc
    rw [CanonB, if_neg h, if_pos rfl] at hc
    exact absurd hc (by simp)
  | case4 c rest h hell hcond ih =>
    intro hc
    rw [CanonB, if_neg h, if_neg hell, if_pos (by simp [hcond.1]),
      if_pos hcond.2, Bool.and_eq_true] at hc
    obtain ⟨hall, hcan⟩ := hc
    rw [postprocess, if_neg h, if_neg hell, if_pos hcond, ih hcan]
    have hrep : List.replicate (1 + (rest.takeWhile isDot).length) 46 =
        (c :: rest).takeWhile isDot := by
      symm
      rw [List.eq_replicate_iff]
      constructor
      · rw [List.takeWhile_cons_of_pos hcond.1]
        simp [Nat.add_comm]
      · intro b hb
        have hb46 := List.all_eq_true.mp hall b hb
        simpa using hb46
    rw [hrep, show rest.dropWhile isDot = (c :: rest).dropWhile isDot from
      (List.dropWhile_cons_of_pos hcond.1).symm,
      List.takeWhile_append_dropWhile]
  | case5 c rest h hell hcond ih =>
    intro hc
    rw [postprocess, if_neg h, if_neg hell, if_neg hcond]
    rw [CanonB, if_neg h, if_neg hell] at hc
    by_cases hd : isDot c = true
    · rw [if_pos (by simp [hd]),
        if_neg (fun hr => hcond ⟨hd, hr⟩), Bool.and_eq_true] at hc
      obtain ⟨hc46, hcan⟩ := hc
      have hceq : c = 12539 := by simpa using hc46
      subst hceq
      rw [show halfToFullConvert 12539 = 12539 from by decide, ih hcan]
    · rw [if_neg (by simp [hd]), Bool.and_eq_true] at hc
      obtain ⟨hfix, hcan⟩ := hc
      rw [ih hcan]
      congr 1
      rw [halfToFullConvert]
      split
      · rename_i hlt
        rw [if_pos hlt] at hfix
        simpa using hfix
      · rfl

/-- C6: Normalize is an idempotent projection: for every string `s` that
is already canonicalized (in the image of `postprocess`),
`postprocess (postprocess s) = postprocess s`. -/
theorem postprocess_idempotent_on_image (s : List Nat)
    (h : ∃ t, s = postprocess t) :
    postprocess (postprocess s) = postprocess s := by
  obtain ⟨t, rfl⟩ := h
  exact postprocess_of_CanonB _ (CanonB_postprocess _ (postprocess_no_ws t))

/-- Witness for C6 at the canonicalized image of `"A."`. -/
theorem postprocess_idempotent_on_image_witness :
    (∃ t, postprocess (strCps "A.") = postprocess t) ∧
    postprocess (postprocess (postprocess (strCps "A."))) =
      postprocess (postprocess (strCps "A.")) :=
  ⟨⟨strCps "A.", rfl⟩,
   postprocess_idempotent_on_image _ ⟨strCps "A.", rfl⟩⟩

/-- C5 counterexample: `Normalize("A B")` is not `"AB"` — the letters do
not appear unchanged in the output. -/
theorem postprocess_A_space_B_counterexample :
    postprocess (strCps "A B") ≠ strCps "AB" := by
  rw [show strCps "A B" = [65, 32, 66] from by decide,
      show strCps "AB" = [65, 66] from by decide]
  norm_num [postprocess, wsChar, wsList, isDot, ellipsisCp]
  decide

/-- C5 (amended): `Normalize("A B") = "ＡＢ"` — the embedded whitespace
code point is elided, and the letters are emitted as their full-width
forms via the conversion table. -/
theorem postprocess_A_space_B :
    postprocess (strCps "A B") = strCps "ＡＢ" := by
  rw [show strCps "A B" = [65, 32, 66] from by decide,
      show strCps "ＡＢ" = [65313, 65314] from by decide]
  norm_num [postprocess, wsChar, wsList, isDot, ellipsisCp]
  decide

end Mihon

namespace Mihon

/-- Witness for C4 at the concrete all-`-inf` row: the entry at index 3 is
bounded by the entry at the selected index. -/
theorem FindMaxLogitToken_first_argmax_witness :
    3 < VOCAB_SIZE ∧
    botLogits ((1 - 1) * VOCAB_SIZE + 3) ≤
      botLogits ((1 - 1) * VOCAB_SIZE +
        FindMaxLogitToken ltGt ⊥ botLogits 1) :=
  ⟨by norm_num [VOCAB_SIZE],
   (FindMaxLogitToken_first_argmax botLogits 1).1 3 (by norm_num [VOCAB_SIZE])⟩


end Mihon

namespace Mihon

/-- Witness for C10 at a concrete comparison, buffer and row index. -/
theorem FindMaxLogitToken_in_range_witness :
    FindMaxLogitToken gtW ⊥ botLogits 1 < VOCAB_SIZE ∧
    ¬ ((FindMaxLogitToken gtW ⊥ botLogits 1 : Int) < 0) ∧
    embedReadEnd (FindMaxLogitToken gtW ⊥ botLogits 1) ≤ VOCAB_SIZE * HIDDEN_SIZE :=
  FindMaxLogitToken_in_range gtW ⊥ botLogits 1

end Mihon
